import Mathlib

/-!
# Verification of the genesis tree-notation core

This development shallowly embeds the hard core of the genesis phylogenetic
toolkit: the Newick notation parser (`NewickProcessor::ParseTree`), its
element serializer (`NewickProcessor::ElementToString`), the base `Lexer`
character bookkeeping (`Lexer::GetCharType`, `Lexer::NextChar`,
`Lexer::start_char_table_`), and the tree arena with rerooting and
levelorder traversal.  Definitions are transcribed from the C++ sources;
pieces of the repository that are not among the available sources (the
Newick broker container, the tree builder, `reroot`, `levelorder`,
`validate_topology`, `std::stod`, `ToStringPrecise`) are modelled from the
specification and are marked as such in their doc comments.
-/

set_option maxHeartbeats 1000000

namespace Genesis

-- =========================================================================
--     Tokens
-- =========================================================================

/-- The kinds of lexer tokens that `NewickProcessor::ParseTree` discriminates
on, together with the token text (`LexerToken::value()`) for the kinds that
carry one.  These are exactly the token kinds the parser's dispatch handles:
`IsUnknown`, `IsBracket("(")`, `IsBracket(")")`, `IsSymbol`, `IsString`,
`IsNumber`, `IsTag`, `IsComment`, `IsOperator(",")` and `IsOperator(";")`. -/
inductive NewickTokenKind where
  | symbol (s : String)
  | qstring (s : String)
  | number (s : String)
  | tag (s : String)
  | comment (s : String)
  | obracket
  | cbracket
  | comma
  | semicolon
  | unknown (s : String)
  deriving DecidableEq, Repr

/-- A lexer token as seen by the Newick parser: its kind/value plus the
position string produced by `LexerToken::at()` ("line:column"), which only
feeds the error messages. -/
structure NewickToken where
  kind : NewickTokenKind
  pos : String
  deriving DecidableEq, Repr

def NewickTokenKind.isSymbol : NewickTokenKind → Bool
  | .symbol _ => true
  | _ => false

def NewickTokenKind.isString : NewickTokenKind → Bool
  | .qstring _ => true
  | _ => false

def NewickTokenKind.isNumber : NewickTokenKind → Bool
  | .number _ => true
  | _ => false

def NewickTokenKind.isTag : NewickTokenKind → Bool
  | .tag _ => true
  | _ => false

def NewickTokenKind.isComment : NewickTokenKind → Bool
  | .comment _ => true
  | _ => false

def NewickTokenKind.isOBracket : NewickTokenKind → Bool
  | .obracket => true
  | _ => false

def NewickTokenKind.isCBracket : NewickTokenKind → Bool
  | .cbracket => true
  | _ => false

def NewickTokenKind.isComma : NewickTokenKind → Bool
  | .comma => true
  | _ => false

def NewickTokenKind.isSemicolon : NewickTokenKind → Bool
  | .semicolon => true
  | _ => false

def NewickTokenKind.isUnknown : NewickTokenKind → Bool
  | .unknown _ => true
  | _ => false

/-- The function `LexerToken::value()`: the token text; brackets and operators yield their
single character. -/
def NewickToken.value (t : NewickToken) : String :=
  match t.kind with
  | .symbol s => s
  | .qstring s => s
  | .number s => s
  | .tag s => s
  | .comment s => s
  | .obracket => "("
  | .cbracket => ")"
  | .comma => ","
  | .semicolon => ";"
  | .unknown s => s

-- =========================================================================
--     Broker elements and configuration
-- =========================================================================

/-- Modelled from the spec: `NewickBrokerElement`; the class definition is
not among the available sources; the spec gives the fields `depth`
(non-negative integer; `int` in `ParseTree`), `name` (string), `branch_length`
(floating point, default 0.0, modelled as an exact rational), `tags` and
`comments` (ordered string sequences) and `is_leaf` (boolean). -/
structure NewickBrokerElement where
  depth : Int
  name : String := ""
  branch_length : ℚ := 0
  tags : List String := []
  comments : List String := []
  is_leaf : Bool := false
  deriving DecidableEq, Repr

/-- The `NewickProcessor` static configuration (`use_default_names`,
`default_leaf_name`, `default_internal_name`, `default_root_name`) with the
defaults from the source. -/
structure NewickConfig where
  use_default_names : Bool := false
  default_leaf_name : String := "Leaf Node"
  default_internal_name : String := "Internal Node"
  default_root_name : String := "Root Node"
  deriving DecidableEq, Repr

-- =========================================================================
--     std::stod model
-- =========================================================================

/-- Characters skipped by `std::strtod` before the number (C `isspace`). -/
def isSpaceChar (c : Char) : Bool :=
  c = ' ' || c = '\t' || c = '\n' || c = '\x0b' || c = '\x0c' || c = '\r'

def digitsToNat (ds : List Char) : Nat :=
  ds.foldl (fun a c => 10 * a + (c.toNat - 48)) 0

/-- Model of `std::stod` restricted to decimal literals: it skips leading
whitespace, accepts an optional sign, digits with at most one decimal point
(at least one digit required), and an optional exponent (only consumed when
at least one exponent digit follows), ignoring any trailing characters.
`none` models the `std::invalid_argument` exception thrown when no
conversion can be performed.  Hexadecimal, infinity and NaN forms, the
rounding to the nearest double, and the `std::out_of_range` overflow
exception are not modelled; the claims only depend on the thrown-vs-parsed
distinction and on the exact decimal value. -/
def stodQ (s : String) : Option ℚ :=
  let cs0 := s.data.dropWhile isSpaceChar
  let sg : ℚ := match cs0 with
    | '-' :: _ => -1
    | _ => 1
  let cs := match cs0 with
    | '+' :: r => r
    | '-' :: r => r
    | _ => cs0
  let d1 := cs.takeWhile Char.isDigit
  let cs1 := cs.dropWhile Char.isDigit
  let d2 := match cs1 with
    | '.' :: r => r.takeWhile Char.isDigit
    | _ => []
  let cs2 := match cs1 with
    | '.' :: r => r.dropWhile Char.isDigit
    | _ => cs1
  if d1.isEmpty && d2.isEmpty then none
  else
    let mant : ℚ := sg * (digitsToNat (d1 ++ d2) : ℚ) / ((10 : ℚ) ^ d2.length)
    let expv : Int := match cs2 with
      | c :: r =>
        if c = 'e' || c = 'E' then
          let r' := match r with
            | '+' :: rr => rr
            | '-' :: rr => rr
            | _ => r
          let es : Int := match r with
            | '-' :: _ => -1
            | _ => 1
          let ed := r'.takeWhile Char.isDigit
          if ed.isEmpty then 0 else es * (digitsToNat ed : Int)
        else 0
      | [] => 0
    some (mant * (10 : ℚ) ^ expv)

-- =========================================================================
--     String helpers
-- =========================================================================

/-- The function `StringReplaceAll` (from `utils`, not among the available sources)
specialized to the two single-character replacements `ParseTree` and
`ElementToString` perform: every occurrence of `src` becomes `tgt`. -/
def replaceAllChar (src tgt : Char) (s : String) : String :=
  ⟨s.data.map fun c => if c = src then tgt else c⟩

-- =========================================================================
--     ParseTree: the Newick notation parser (src/unnamed/part_002)
-- =========================================================================

/-- The running state of the token loop in `NewickProcessor::ParseTree`:
the broker contents so far (`NewickBroker::PushTop` pushes on top, i.e.
conses at the front), the node currently being populated (`node`, null when
the last token finalized one), the nesting `depth`, the `closed` flag, and
the consumed tokens most-recent-first (giving both the previous token `pt`
and the backwards walk used for the leaf check). -/
structure ParseState where
  broker : List NewickBrokerElement
  node : Option NewickBrokerElement
  depth : Int
  closed : Bool
  prev : List NewickToken
  deriving DecidableEq, Repr

/-- The leaf check of `ParseTree`: walk backwards from the previous token,
skipping comments but stopping at the first token of the stream, and test
whether the token found is `(` or `,`. -/
def isLeafCheck : List NewickToken → Bool
  | [] => false
  | [t] => t.kind.isOBracket || t.kind.isComma
  | t :: rest =>
    if t.kind.isComment then isLeafCheck rest
    else t.kind.isOBracket || t.kind.isComma

/-- The node that the current token will populate: the one already being
built if it exists, otherwise a fresh element at the current depth with the
leaf check applied (`new NewickBrokerElement()` plus the `depth` and
`is_leaf` assignments of `ParseTree`). -/
def ensureNode (s : ParseState) : NewickBrokerElement :=
  match s.node with
  | some nd => nd
  | none =>
    { depth := s.depth, name := "", branch_length := 0, tags := [],
      comments := [], is_leaf := isLeafCheck s.prev }

/-- Default-name policy applied when a `,` or `)` finalizes an element. -/
def finalizeNode (cfg : NewickConfig) (nd : NewickBrokerElement) : NewickBrokerElement :=
  if nd.name = "" && cfg.use_default_names then
    { nd with name := if nd.is_leaf then cfg.default_leaf_name else cfg.default_internal_name }
  else nd

/-- Default-name policy applied when the final `;` finalizes the root. -/
def finalizeRoot (cfg : NewickConfig) (nd : NewickBrokerElement) : NewickBrokerElement :=
  if nd.name = "" && cfg.use_default_names then
    { nd with name := cfg.default_root_name }
  else nd

def invalidCharsMsg (ct : NewickToken) : String :=
  "Invalid characters at " ++ (ct.pos ++ (": \x27" ++ (ct.value ++ "\x27.")))

def closedMsg (ct : NewickToken) : String :=
  "Tree was already closed. Cannot reopen it with \x27(\x27 at " ++ (ct.pos ++ ".")

def noStartMsg (ct : NewickToken) : String :=
  "Tree does not start with \x27(\x27 at " ++ (ct.pos ++ ".")

def invalidCommaMsg (ct : NewickToken) : String :=
  "Invalid \x27,\x27 at " ++ (ct.pos ++ ".")

def tooManyMsg (ct : NewickToken) : String :=
  "Too many \x27)\x27 at " ++ (ct.pos ++ ".")

def invalidCloseMsg (ct : NewickToken) : String :=
  "Invalid \x27)\x27 at " ++ (ct.pos ++ (": \x27" ++ (ct.value ++ "\x27.")))

def notEnoughMsg (ct : NewickToken) : String :=
  "Not enough \x27)\x27 in tree before closing it with \x27;\x27 at " ++ (ct.pos ++ ".")

def invalidSemiMsg (ct : NewickToken) : String :=
  "Invalid \x27;\x27 at " ++ (ct.pos ++ (": \x27" ++ (ct.value ++ "\x27.")))

/-- The message logged when the token stream ends without a semicolon. -/
def unterminatedMsg : String := "Tree does not finish with a semicolon."

/-- The outcome of processing one token in the `ParseTree` loop. -/
inductive StepResult where
  | cont (s : ParseState)
  | done (s : ParseState)
  | fail (msg : String) (s : ParseState)
  | thrown (s : ParseState)
  deriving DecidableEq, Repr

/-- One iteration of the token loop of `NewickProcessor::ParseTree`,
transcribed branch by branch from the source: the unknown-token check, the
`(` handler (previous-token check, `closed` check, depth increment), the
first-token check (only a comment may precede the opening `(`), the node
set-up, and the handlers for symbol/string (label, with underscores decoded
to spaces for unquoted symbols), number (branch length via `std::stod`,
whose exception propagates), tag, comment, `,`, `)` (depth decrement,
setting `closed` at depth 0) and `;` (successful break). -/
def parseStep (cfg : NewickConfig) (s : ParseState) (ct : NewickToken) : StepResult :=
  if ct.kind.isUnknown then .fail (invalidCharsMsg ct) s
  else if ct.kind.isOBracket then
    if (match s.prev.head? with
        | some pt => !(pt.kind.isOBracket || pt.kind.isComma || pt.kind.isComment)
        | none => false) then
      .fail (invalidCharsMsg ct) s
    else if s.closed then .fail (closedMsg ct) s
    else .cont { s with depth := s.depth + 1, prev := ct :: s.prev }
  else
    match s.prev with
    | [] =>
      if ct.kind.isComment then .cont { s with prev := ct :: s.prev }
      else .fail (noStartMsg ct) s
    | pt :: _ =>
      let nd := ensureNode s
      if ct.kind.isSymbol || ct.kind.isString then
        if !(pt.kind.isOBracket || pt.kind.isCBracket ||
             pt.kind.isComma || pt.kind.isComment) then
          .fail (invalidCharsMsg ct) s
        else
          let nm := if ct.kind.isSymbol then replaceAllChar '_' ' ' ct.value else ct.value
          .cont { s with node := some { nd with name := nm }, prev := ct :: s.prev }
      else if ct.kind.isNumber then
        if !(pt.kind.isOBracket || pt.kind.isCBracket || pt.kind.isSymbol ||
             pt.kind.isString || pt.kind.isComment || pt.kind.isComma) then
          .fail (invalidCharsMsg ct) s
        else
          match stodQ ct.value with
          | none => .thrown s
          | some q =>
            .cont { s with node := some { nd with branch_length := q }, prev := ct :: s.prev }
      else if ct.kind.isTag then
        .cont { s with
                node := some { nd with tags := nd.tags ++ [ct.value] }
                prev := ct :: s.prev }
      else if ct.kind.isComment then
        .cont { s with
                node := some { nd with comments := nd.comments ++ [ct.value] }
                prev := ct :: s.prev }
      else if ct.kind.isComma then
        if !(pt.kind.isOBracket || pt.kind.isCBracket || pt.kind.isComment ||
             pt.kind.isSymbol || pt.kind.isString || pt.kind.isNumber ||
             pt.kind.isTag || pt.kind.isComma) then
          .fail (invalidCommaMsg ct) s
        else
          .cont { s with
                  broker := finalizeNode cfg nd :: s.broker
                  node := none
                  prev := ct :: s.prev }
      else if ct.kind.isCBracket then
        if s.depth = 0 then .fail (tooManyMsg ct) s
        else if !(pt.kind.isCBracket || pt.kind.isTag || pt.kind.isComment ||
                  pt.kind.isSymbol || pt.kind.isString || pt.kind.isNumber ||
                  pt.kind.isComma) then
          .fail (invalidCloseMsg ct) s
        else
          let d := s.depth - 1
          .cont { s with
                  broker := finalizeNode cfg nd :: s.broker
                  node := none
                  depth := d
                  closed := if d = 0 then true else s.closed
                  prev := ct :: s.prev }
      else
        if s.depth ≠ 0 then .fail (notEnoughMsg ct) s
        else if !(pt.kind.isCBracket || pt.kind.isSymbol || pt.kind.isString ||
                  pt.kind.isComment || pt.kind.isNumber || pt.kind.isTag) then
          .fail (invalidSemiMsg ct) s
        else
          .done { s with
                  broker := finalizeRoot cfg nd :: s.broker
                  node := none
                  prev := ct :: s.prev }

/-- The outcome of `NewickProcessor::ParseTree`: success carries the broker
contents and the tokens remaining after the terminating semicolon (the
iterator is advanced past it); failure carries the logged message and the
broker as the caller sees it (the loop never clears it on error); `thrown`
models the uncaught `std::stod` exception. -/
inductive ParseResult where
  | success (broker : List NewickBrokerElement) (rest : List NewickToken)
  | failure (msg : String) (broker : List NewickBrokerElement)
  | thrown (broker : List NewickBrokerElement)
  deriving DecidableEq, Repr

/-- The token loop of `ParseTree`.  When the stream is exhausted without an
error or a `;` break, the parser reports the unterminated-tree message. -/
def parseLoop (cfg : NewickConfig) : ParseState → List NewickToken → ParseResult
  | s, [] => .failure unterminatedMsg s.broker
  | s, ct :: ts =>
    match parseStep cfg s ct with
    | .cont s' => parseLoop cfg s' ts
    | .done s' => .success s'.broker ts
    | .fail m s' => .failure m s'.broker
    | .thrown s' => .thrown s'.broker

/-- The parser `NewickProcessor::ParseTree`, started (as its callers do) at the first
token of the lexer with a freshly cleared broker. -/
def ParseTree (cfg : NewickConfig) (ts : List NewickToken) : ParseResult :=
  parseLoop cfg ⟨[], none, 0, false, []⟩ ts

-- =========================================================================
--     ElementToString: the Newick element serializer (src/unnamed/part_002)
-- =========================================================================

/-- The `NewickProcessor` printing flags with their defaults from the
source (`print_names`, `print_branch_lengths`, `print_comments`,
`print_tags`, `precision`). -/
structure NewickPrintConfig where
  print_names : Bool := true
  print_branch_lengths : Bool := false
  print_comments : Bool := false
  print_tags : Bool := false
  precision : Nat := 6
  deriving DecidableEq, Repr

/-- The serializer `NewickProcessor::ElementToString`.  The branch-length formatter
`ToStringPrecise` is not among the available sources and is taken as the
parameter `fmt` (value and precision to string). -/
def ElementToString (fmt : ℚ → Nat → String)
    (pc : NewickPrintConfig) (bn : NewickBrokerElement) : String :=
  (if pc.print_names then replaceAllChar ' ' '_' bn.name else "")
  ++ (if pc.print_branch_lengths then ":" ++ fmt bn.branch_length pc.precision else "")
  ++ (if pc.print_comments then String.join (bn.comments.map fun c => "[" ++ c ++ "]") else "")
  ++ (if pc.print_tags then String.join (bn.tags.map fun t => "\x7b" ++ t ++ "\x7d") else "")

-- =========================================================================
--     Lexer character bookkeeping (src/lib/placement/pquery/plain.hpp)
-- =========================================================================

/-- The enum `LexerTokenType` from `utils/lexer_token.hpp` (the definition is not
among the available sources; the constructors are those used by the lexer
header: the table uses `kError`, `kWhite`, `kUnknown`, `kNumber`, `kSymbol`,
and the scanners mentioned in the header also use `kComment`, `kString`,
`kBracket`, `kOperator` and `kTag`). -/
inductive LexerTokenType where
  | kError
  | kUnknown
  | kWhite
  | kComment
  | kSymbol
  | kNumber
  | kString
  | kBracket
  | kOperator
  | kTag
  deriving DecidableEq, Repr

/-- The table `Lexer::start_char_table_`: the 128-entry character-class table,
transcribed entry for entry from the source (runs of equal entries written
with `List.replicate`): control chars 0-8 error, 9-13 (tab to carriage
return) whitespace, 14-31 error, 32 (space) whitespace, the printable
punctuation unknown, digits number, letters symbol, 127 (DEL) error. -/
def start_char_table : List LexerTokenType :=
  List.replicate 9 .kError ++ List.replicate 5 .kWhite ++ List.replicate 18 .kError
  ++ [.kWhite] ++ List.replicate 15 .kUnknown ++ List.replicate 10 .kNumber
  ++ List.replicate 7 .kUnknown ++ List.replicate 26 .kSymbol
  ++ List.replicate 6 .kUnknown ++ List.replicate 26 .kSymbol
  ++ List.replicate 4 .kUnknown ++ [.kError]

/-- The classifier `Lexer::GetCharType(char)`: a (signed) char in [-128,127]; negative
values return `kError` without touching the table, non-negative values are
cast to `unsigned char` and used as the table index. -/
def GetCharType (c : Int) : LexerTokenType :=
  if c < 0 then .kError
  else start_char_table.getD c.toNat .kError

/-- The lexer position bookkeeping (`itr_`, `line_`, `col_`), with the
initial values `itr_ = 0`, `line_ = 1`, `col_ = 0` of the source. -/
structure LexerPos where
  itr : Nat
  line : Int
  col : Int
  deriving DecidableEq, Repr

/-- The accessor `Lexer::GetChar(offset)`: the char at an absolute position, or the null
char when the position lies outside the text. -/
def getCharAt (text : List Char) (p : Int) : Char :=
  if p < 0 || (text.length : Int) ≤ p then '\x00'
  else text.getD p.toNat '\x00'

/-- The advance step `Lexer::NextChar`: advance the iterator and the column; increment the
line counter and reset the column when the char now under the iterator is a
line feed not preceded by a carriage return, or is a carriage return (the
second condition of the source, so that CR+LF is not counted twice). -/
def NextChar (text : List Char) (s : LexerPos) : LexerPos :=
  let itr' := s.itr + 1
  if (getCharAt text (itr' : Int) == '\n' && !(getCharAt text ((itr' : Int) - 1) == '\r'))
     || getCharAt text (itr' : Int) == '\r' then
    ⟨itr', s.line + 1, 0⟩
  else
    ⟨itr', s.line, s.col + 1⟩

/-- Modelled from the spec: the scanning driver (`Lexer::ProcessStep` /
`FromString`, whose bodies are not among the available sources) advances
exclusively through `NextChar` from position 0 until `IsEnd()`; `NextChar`'s
own doc comment states that all line counting happens there.  The fuel is
the text length, exactly the number of advances performed. -/
def scanFrom (text : List Char) : Nat → LexerPos → LexerPos
  | 0, s => s
  | fuel+1, s => if text.length ≤ s.itr then s else scanFrom text fuel (NextChar text s)

/-- Scan a whole text from the initial lexer state. -/
def scanText (text : List Char) : LexerPos := scanFrom text text.length ⟨0, 1, 0⟩

/-- The line-break test `NextChar` applies at an in-range position `p`:
a line feed not directly preceded by a carriage return, or a carriage
return. -/
def isBreakAt (text : List Char) (p : Nat) : Bool :=
  (text.getD p '\x00' == '\n' && !(text.getD (p-1) '\x00' == '\r'))
  || text.getD p '\x00' == '\r'

/-- The number of line-break positions in `(k, k+fuel]` that lie strictly
inside the text (the positions `NextChar` lands on and counts). -/
def breaksBetween (text : List Char) : Nat → Nat → Nat
  | _, 0 => 0
  | k, fuel+1 =>
    (if k+1 < text.length && isBreakAt text (k+1) then 1 else 0)
    + breaksBetween text (k+1) fuel

/-- The line breaks the scanner actually counts: break positions `p ≥ 1`
(position 0 is never landed on by `NextChar`). -/
def codeLineBreaks (text : List Char) : Nat := breaksBetween text 0 text.length

/-- The claim's metric, written from the spec's words: the number of line
breaks in the text where a CR+LF two-character sequence counts as exactly
one break — every carriage return breaks, and a line feed breaks unless it
directly follows a carriage return. -/
def specLineBreaks (text : List Char) : Nat :=
  (List.range text.length).countP fun p =>
    text.getD p '\x00' == '\r'
    || (text.getD p '\x00' == '\n' && (p == 0 || !(text.getD (p-1) '\x00' == '\r')))

-- =========================================================================
--     Tree arena (modelled from the spec, faithful to the reroot tests)
-- =========================================================================

/-- Modelled from the spec: a half-edge link record — its node, its edge,
the next link around the same node (cyclic), and the reciprocal link across
the edge.  All cross-references are indices. -/
structure ArenaLink where
  node : Nat
  edge : Nat
  next : Nat
  outer : Nat
  deriving DecidableEq, Repr

/-- Modelled from the spec: an edge record with its primary (parent-side)
and secondary (child-side) node and link indices and its payload. -/
structure ArenaEdge where
  primary_node : Nat
  secondary_node : Nat
  primary_link : Nat
  secondary_link : Nat
  branch_length : ℚ
  deriving DecidableEq, Repr

/-- Modelled from the spec: a node record with its primary link (the
parent-ward link; for the root, the root link) and its payload name. -/
structure ArenaNode where
  primary : Nat
  name : String
  deriving DecidableEq, Repr

/-- Modelled from the spec: the tree arena — three parallel index-addressed
collections; the index of a record is its list position, so indices are
dense by construction. -/
structure ArenaTree where
  nodes : List ArenaNode
  edges : List ArenaEdge
  links : List ArenaLink
  deriving DecidableEq, Repr

def nodeAt (t : ArenaTree) (i : Nat) : ArenaNode := t.nodes.getD i ⟨0, ""⟩

def edgeAt (t : ArenaTree) (i : Nat) : ArenaEdge := t.edges.getD i ⟨0, 0, 0, 0, 0⟩

def linkAt (t : ArenaTree) (i : Nat) : ArenaLink := t.links.getD i ⟨0, 0, 0, 0⟩

/-- A node is the root when its primary link sits on the primary (parent)
side of its own edge; every non-root node's primary link is the secondary
side of the edge toward its parent. -/
def isRootNode (t : ArenaTree) (v : Nat) : Bool :=
  (edgeAt t (linkAt t (nodeAt t v).primary).edge).primary_link == (nodeAt t v).primary

/-- Whether `L` is the current root link: it is the primary link of its node and
that node is the root. -/
def isRootLink (t : ArenaTree) (L : Nat) : Bool :=
  ((nodeAt t (linkAt t L).node).primary == L)
  && ((edgeAt t (linkAt t L).edge).primary_link == L)

def rootNodeIdx (t : ArenaTree) : Nat :=
  ((List.range t.nodes.length).filter fun v => isRootNode t v).headD 0

def rootLinkIdx (t : ArenaTree) : Nat := (nodeAt t (rootNodeIdx t)).primary

/-- The lookup `find_node(tree, name)`: linear scan for the first node with the given
name (spec §6); the node count is returned when there is none. -/
def findNodeIdx (t : ArenaTree) (nm : String) : Nat :=
  (((List.range t.nodes.length).filter fun v => (nodeAt t v).name == nm).headD t.nodes.length)

-- -------------------------------------------------------------------------
--     Builder (spec §4.3)
-- -------------------------------------------------------------------------

/-- Modelled from the spec: attach a broker element `el` as a new child of
node `p`, allocating one node, one edge and two links at the end of their
collections.  The new parent-side link is inserted at the front of the
parent's child sequence (the serializer visits children in reverse insertion
order, and the broker lists children in reverse notation order, so
front-insertion restores notation order): for a non-root parent directly
after its parent-ward primary link, for the root parent before the old
primary link, becoming the new primary (root) link; a parent that has no
link yet (the root before its first child) gets the new link as its only,
self-cyclic primary. -/
def attachChild (t : ArenaTree) (p : Nat) (isRootParent : Bool)
    (el : NewickBrokerElement) : ArenaTree :=
  let c := t.nodes.length
  let e := t.edges.length
  let lp := t.links.length
  let lc := lp + 1
  let childNode : ArenaNode := ⟨lc, el.name⟩
  let newEdge : ArenaEdge := ⟨p, c, lp, lc, el.branch_length⟩
  let childLink : ArenaLink := ⟨c, e, lc, lp⟩
  if t.links.any fun l => l.node == p then
    let prim := (nodeAt t p).primary
    if isRootParent then
      let pred := ((List.range t.links.length).filter
        fun i => ((linkAt t i).node == p) && ((linkAt t i).next == prim)).headD 0
      { nodes := (t.nodes.set p { nodeAt t p with primary := lp }) ++ [childNode]
        edges := t.edges ++ [newEdge]
        links := (t.links.set pred { linkAt t pred with next := lp })
                 ++ [⟨p, e, prim, lc⟩, childLink] }
    else
      { nodes := t.nodes ++ [childNode]
        edges := t.edges ++ [newEdge]
        links := (t.links.set prim { linkAt t prim with next := lp })
                 ++ [⟨p, e, (linkAt t prim).next, lc⟩, childLink] }
  else
    { nodes := (t.nodes.set p { nodeAt t p with primary := lp }) ++ [childNode]
      edges := t.edges ++ [newEdge]
      links := t.links ++ [⟨p, e, lp, lc⟩, childLink] }

/-- Modelled from the spec: the builder walks the broker list once (root
first), with a stack of currently open ancestors keyed by depth; an element
pops ancestors until the stack top is its parent, is attached as a child of
that parent, and is pushed itself.  The first element creates the root
node. -/
def buildGo : List (Int × Nat) → ArenaTree → List NewickBrokerElement → ArenaTree
  | _, t, [] => t
  | stack, t, el :: rest =>
    match stack with
    | [] => buildGo [(el.depth, 0)] ⟨[⟨0, el.name⟩], [], []⟩ rest
    | _ :: _ =>
      let stack' := stack.dropWhile fun se => el.depth ≤ se.1
      match stack' with
      | [] => buildGo stack' t rest
      | (_, p) :: _ =>
        let t' := attachChild t p (stack'.length == 1) el
        buildGo ((el.depth, t.nodes.length) :: stack') t' rest

/-- Modelled from the spec: build a tree arena from a broker list. -/
def buildTree (broker : List NewickBrokerElement) : ArenaTree :=
  buildGo [] ⟨[], [], []⟩ broker

-- -------------------------------------------------------------------------
--     Reroot (spec §4.4)
-- -------------------------------------------------------------------------

/-- Reverse the primary/secondary roles of an edge. -/
def flipEdge (e : ArenaEdge) : ArenaEdge :=
  ⟨e.secondary_node, e.primary_node, e.secondary_link, e.primary_link, e.branch_length⟩

/-- Modelled from the spec: the walk of `reroot` from a node back toward the
old root — the parent-ward primary links traversed, in order, stopping at
the root (whose primary link sits on the primary side of its edge).  The
fuel (the node count at the call site) bounds the walk on malformed input. -/
def upLinks (t : ArenaTree) : Nat → Nat → List Nat
  | 0, _ => []
  | fuel+1, v =>
    let c := (nodeAt t v).primary
    if (edgeAt t (linkAt t c).edge).primary_link = c then []
    else c :: upLinks t fuel (linkAt t ((linkAt t c).outer)).node

/-- One reversal step of `reroot` for a traversed parent-ward link `c`:
the edge of `c` swaps its primary/secondary roles, and the node across `c`
(the old parent) gets its primary link redirected toward the new root, i.e.
to the reciprocal of `c`.  The reversed orientation is computed from the
pre-reroot tree `t`; in a valid tree the traversed nodes and edges are
pairwise distinct, so this equals the in-place walk of the source. -/
def applyRev (t : ArenaTree) (acc : ArenaTree) (c : Nat) : ArenaTree :=
  let e := (linkAt t c).edge
  let p := (linkAt t c).outer
  let a := (linkAt t p).node
  { acc with
    edges := acc.edges.set e (flipEdge (edgeAt t e))
    nodes := acc.nodes.set a { nodeAt t a with primary := p } }

/-- Modelled from the spec: `reroot(tree, link)` makes the node owning
`link` the new root without changing the edge set: that node's primary link
becomes `link` itself, and every edge on the walk back to the old root has
its primary/secondary roles reversed while each visited node's primary link
is redirected toward the new root. -/
def reroot (t : ArenaTree) (L : Nat) : ArenaTree :=
  let n := (linkAt t L).node
  let t1 : ArenaTree := { t with nodes := t.nodes.set n { nodeAt t n with primary := L } }
  (upLinks t t.nodes.length n).foldl (applyRev t) t1

-- -------------------------------------------------------------------------
--     Levelorder traversal (spec §4.4)
-- -------------------------------------------------------------------------

/-- The links of a node in cyclic `next` order, starting at `start` (fuel
bounds the walk on malformed input). -/
def cycleFrom (t : ArenaTree) (start : Nat) : Nat → Nat → List Nat
  | 0, _ => []
  | fuel+1, cur =>
    cur :: (if (linkAt t cur).next == start then []
            else cycleFrom t start fuel (linkAt t cur).next)

/-- Modelled from the spec: the levelorder iterator — an explicit FIFO
queue of (entry link, depth, is-start) items.  Popping an item visits the
link's node at its depth and enqueues the nodes across the node's other
links one level deeper; for the start node the cycle beginning at the root
link itself is used (all neighbours, the one across the root link first),
for every other node the entry link (pointing back to the parent) is
skipped. -/
def levelGo (t : ArenaTree) : Nat → List (Nat × Nat × Bool) → List (Nat × String)
  | 0, _ => []
  | _, [] => []
  | fuel+1, (l, d, first) :: q =>
    let cyc := cycleFrom t l t.links.length l
    let kids := if first then cyc else cyc.drop 1
    (d, (nodeAt t (linkAt t l).node).name)
      :: levelGo t fuel (q ++ kids.map fun m => ((linkAt t m).outer, d+1, false))

/-- Modelled from the spec: levelorder traversal from the root link,
returning the (depth, node name) sequence that the reroot test prints. -/
def levelorder (t : ArenaTree) : List (Nat × String) :=
  levelGo t t.nodes.length [(rootLinkIdx t, 0, true)]

-- -------------------------------------------------------------------------
--     validate_topology (spec §3 invariants, §4.4)
-- -------------------------------------------------------------------------

/-- Every link's cross-references are in bounds. -/
def chkLinkBounds (t : ArenaTree) : Bool :=
  t.links.all fun l =>
    (l.node < t.nodes.length) && (l.edge < t.edges.length)
    && (l.next < t.links.length) && (l.outer < t.links.length)

/-- Every node's primary link is in bounds and belongs to that node. -/
def chkNodePrimary (t : ArenaTree) : Bool :=
  (List.range t.nodes.length).all fun v =>
    ((nodeAt t v).primary < t.links.length)
    && ((linkAt t (nodeAt t v).primary).node == v)

/-- Invariant 3: `outer` is an involution. -/
def chkOuter (t : ArenaTree) : Bool :=
  (List.range t.links.length).all fun i =>
    (linkAt t (linkAt t i).outer).outer == i

/-- Invariant 4: every edge's primary and secondary links point back to the
edge, are reciprocal (`outer`) to each other, distinct, in bounds, and the
edge's node fields agree with its links' nodes. -/
def chkEdges (t : ArenaTree) : Bool :=
  (List.range t.edges.length).all fun e =>
    ((linkAt t (edgeAt t e).primary_link).edge == e)
    && ((linkAt t (edgeAt t e).secondary_link).edge == e)
    && ((linkAt t (edgeAt t e).primary_link).outer == (edgeAt t e).secondary_link)
    && ((linkAt t (edgeAt t e).secondary_link).outer == (edgeAt t e).primary_link)
    && ((edgeAt t e).primary_node == (linkAt t (edgeAt t e).primary_link).node)
    && ((edgeAt t e).secondary_node == (linkAt t (edgeAt t e).secondary_link).node)
    && (!((edgeAt t e).primary_link == (edgeAt t e).secondary_link))
    && ((edgeAt t e).primary_link < t.links.length)
    && ((edgeAt t e).secondary_link < t.links.length)

/-- Every link is one of the two sides of its edge. -/
def chkLinkSide (t : ArenaTree) : Bool :=
  (List.range t.links.length).all fun i =>
    ((edgeAt t (linkAt t i).edge).primary_link == i)
    || ((edgeAt t (linkAt t i).edge).secondary_link == i)

/-- Invariant 5, orientation half: every link is either the parent-ward
primary link of its node or the parent-side (primary) link of its edge —
each node has exactly its primary as parent-ward link. -/
def chkOrientation (t : ArenaTree) : Bool :=
  (List.range t.links.length).all fun i =>
    ((nodeAt t (linkAt t i).node).primary == i)
    || ((edgeAt t (linkAt t i).edge).primary_link == i)

def nodeDegree (t : ArenaTree) (v : Nat) : Nat :=
  (t.links.filter fun l => l.node == v).length

/-- Invariant 2: following `next` from the primary link visits exactly the
node's links once each and returns to the start. -/
def chkCycles (t : ArenaTree) : Bool :=
  (List.range t.nodes.length).all fun v =>
    let cyc := cycleFrom t (nodeAt t v).primary t.links.length (nodeAt t v).primary
    (cyc.length == nodeDegree t v)
    && decide cyc.Nodup
    && (cyc.all fun i => (linkAt t i).node == v)
    && ((linkAt t (cyc.getLastD 0)).next == (nodeAt t v).primary)

/-- The chain of nodes from `v` to the root, following parent-ward primary
links (`v` first, the root last). -/
def chainNodes (t : ArenaTree) (v : Nat) : List Nat :=
  v :: (upLinks t t.nodes.length v).map fun c => (linkAt t ((linkAt t c).outer)).node

/-- Invariant 5, reachability half: from every node the parent-ward walk
reaches the root without revisiting a node. -/
def chkChains (t : ArenaTree) : Bool :=
  (List.range t.nodes.length).all fun v =>
    decide (chainNodes t v).Nodup && isRootNode t ((chainNodes t v).getLastD 0)

/-- Invariant 5, uniqueness half: exactly one root node. -/
def chkRootUnique (t : ArenaTree) : Bool :=
  (((List.range t.nodes.length).filter fun v => isRootNode t v).length == 1)

/-- Invariant 6 plus the two-links-per-edge count. -/
def chkCounts (t : ArenaTree) : Bool :=
  (t.nodes.length == t.edges.length + 1) && (t.links.length == 2 * t.edges.length)

/-- Modelled from the spec: `validate_topology(tree)` checks invariants 1-6
exhaustively (index density, invariant 1, holds by construction of the
index-addressed lists). -/
def validate_topology (t : ArenaTree) : Bool :=
  chkCounts t && chkLinkBounds t && chkNodePrimary t && chkOuter t && chkEdges t
  && chkLinkSide t && chkOrientation t && chkCycles t && chkChains t && chkRootUnique t

-- =========================================================================
--     The concrete reroot-test tree  ((B,(D,E)C)A,F,(H,I)G)R;
-- =========================================================================

/-- A token with an empty position string. -/
def tkn (k : NewickTokenKind) : NewickToken := ⟨k, ""⟩

/-- The token stream of the test input `((B,(D,E)C)A,F,(H,I)G)R;`. -/
def demoToks : List NewickToken :=
  [tkn .obracket, tkn .obracket, tkn (.symbol "B"), tkn .comma, tkn .obracket,
   tkn (.symbol "D"), tkn .comma, tkn (.symbol "E"), tkn .cbracket, tkn (.symbol "C"),
   tkn .cbracket, tkn (.symbol "A"), tkn .comma, tkn (.symbol "F"), tkn .comma,
   tkn .obracket, tkn (.symbol "H"), tkn .comma, tkn (.symbol "I"), tkn .cbracket,
   tkn (.symbol "G"), tkn .cbracket, tkn (.symbol "R"), tkn .semicolon]

def brokerOfResult : ParseResult → List NewickBrokerElement
  | .success b _ => b
  | .failure _ b => b
  | .thrown b => b

/-- The broker list parsed from the test input. -/
def demoBroker : List NewickBrokerElement := brokerOfResult (ParseTree {} demoToks)

/-- The arena tree built from the test input. -/
def demoTree : ArenaTree := buildTree demoBroker

-- =========================================================================
--     Theorems
-- =========================================================================

-- ----- generic list helpers --------------------------------------------

theorem listGetDSetNe {α : Type} : ∀ (l : List α) (i j : Nat) (x d : α), i ≠ j →
    (l.set i x).getD j d = l.getD j d
  | [], _, _, _, _, _ => rfl
  | _ :: _, 0, 0, _, _, h => absurd rfl h
  | _ :: _, 0, _+1, _, _, _ => rfl
  | _ :: _, _+1, 0, _, _, _ => rfl
  | _ :: l, i+1, j+1, x, d, h =>
    listGetDSetNe l i j x d fun hh => h (by rw [hh])

theorem listGetDSetSelf {α : Type} : ∀ (l : List α) (i : Nat) (x d : α), i < l.length →
    (l.set i x).getD i d = x
  | _ :: _, 0, _, _, _ => rfl
  | _ :: l, i+1, x, d, h => listGetDSetSelf l i x d (Nat.lt_of_succ_lt_succ h)
  | [], _, _, _, h => absurd h (by simp)

theorem listSetGetDSelf {α : Type} : ∀ (l : List α) (i : Nat) (d : α), i < l.length →
    l.set i (l.getD i d) = l
  | _ :: _, 0, _, _ => rfl
  | a :: l, i+1, d, h => by
    show a :: l.set i (l.getD i d) = a :: l
    rw [listSetGetDSelf l i d (Nat.lt_of_succ_lt_succ h)]
  | [], _, _, h => absurd h (by simp)

-- ----- parser step lemmas ----------------------------------------------

/-- A failing step leaves the state untouched (the error breaks the loop). -/
theorem step_fail_state (cfg : NewickConfig) (s : ParseState) (ct : NewickToken)
    (m : String) (s' : ParseState) (h : parseStep cfg s ct = .fail m s') : s' = s := by
  rcases ct with ⟨k, a⟩
  cases k <;>
    simp only [parseStep, NewickTokenKind.isUnknown, NewickTokenKind.isOBracket,
      NewickTokenKind.isSymbol, NewickTokenKind.isString, NewickTokenKind.isNumber,
      NewickTokenKind.isTag, NewickTokenKind.isComment, NewickTokenKind.isComma,
      NewickTokenKind.isCBracket, NewickTokenKind.isSemicolon,
      Bool.false_or, Bool.or_false, Bool.true_or, Bool.or_true,
      Bool.not_true, Bool.not_false] at h <;>
    repeat' split at h
  all_goals cases h
  all_goals rfl

/-- A throwing step (the `std::stod` exception) leaves the state untouched. -/
theorem step_thrown_state (cfg : NewickConfig) (s : ParseState) (ct : NewickToken)
    (s' : ParseState) (h : parseStep cfg s ct = .thrown s') : s' = s := by
  rcases ct with ⟨k, a⟩
  cases k <;>
    simp only [parseStep, NewickTokenKind.isUnknown, NewickTokenKind.isOBracket,
      NewickTokenKind.isSymbol, NewickTokenKind.isString, NewickTokenKind.isNumber,
      NewickTokenKind.isTag, NewickTokenKind.isComment, NewickTokenKind.isComma,
      NewickTokenKind.isCBracket, NewickTokenKind.isSemicolon,
      Bool.false_or, Bool.or_false, Bool.true_or, Bool.or_true,
      Bool.not_true, Bool.not_false] at h <;>
    repeat' split at h
  all_goals cases h
  all_goals rfl

/-- A continuing step only ever pushes onto the broker. -/
theorem step_cont_broker (cfg : NewickConfig) (s : ParseState) (ct : NewickToken)
    (s' : ParseState) (h : parseStep cfg s ct = .cont s') :
    List.IsSuffix s.broker s'.broker := by
  rcases ct with ⟨k, a⟩
  cases k <;>
    simp only [parseStep, NewickTokenKind.isUnknown, NewickTokenKind.isOBracket,
      NewickTokenKind.isSymbol, NewickTokenKind.isString, NewickTokenKind.isNumber,
      NewickTokenKind.isTag, NewickTokenKind.isComment, NewickTokenKind.isComma,
      NewickTokenKind.isCBracket, NewickTokenKind.isSemicolon,
      Bool.false_or, Bool.or_false, Bool.true_or, Bool.or_true,
      Bool.not_true, Bool.not_false] at h <;>
    repeat' split at h
  all_goals cases h
  all_goals first
    | exact List.suffix_refl _
    | exact List.suffix_cons _ _

/-- The successful final step pushes the root element onto the broker. -/
theorem step_done_broker (cfg : NewickConfig) (s : ParseState) (ct : NewickToken)
    (s' : ParseState) (h : parseStep cfg s ct = .done s') :
    List.IsSuffix s.broker s'.broker := by
  rcases ct with ⟨k, a⟩
  cases k <;>
    simp only [parseStep, NewickTokenKind.isUnknown, NewickTokenKind.isOBracket,
      NewickTokenKind.isSymbol, NewickTokenKind.isString, NewickTokenKind.isNumber,
      NewickTokenKind.isTag, NewickTokenKind.isComment, NewickTokenKind.isComma,
      NewickTokenKind.isCBracket, NewickTokenKind.isSemicolon,
      Bool.false_or, Bool.or_false, Bool.true_or, Bool.or_true,
      Bool.not_true, Bool.not_false] at h <;>
    repeat' split at h
  all_goals cases h
  all_goals exact List.suffix_cons _ _

/-- Only the `;` handler can break out of the loop successfully. -/
theorem step_done_semicolon (cfg : NewickConfig) (s : ParseState) (ct : NewickToken)
    (s' : ParseState) (h : parseStep cfg s ct = .done s') :
    ct.kind = .semicolon := by
  rcases ct with ⟨k, a⟩
  cases k <;>
    simp only [parseStep, NewickTokenKind.isUnknown, NewickTokenKind.isOBracket,
      NewickTokenKind.isSymbol, NewickTokenKind.isString, NewickTokenKind.isNumber,
      NewickTokenKind.isTag, NewickTokenKind.isComment, NewickTokenKind.isComma,
      NewickTokenKind.isCBracket, NewickTokenKind.isSemicolon,
      Bool.false_or, Bool.or_false, Bool.true_or, Bool.or_true,
      Bool.not_true, Bool.not_false] at h <;>
    repeat' split at h
  all_goals cases h
  all_goals simp_all

/-- The `closed` flag is never reset by a continuing step. -/
theorem step_closed_mono (cfg : NewickConfig) (s : ParseState) (ct : NewickToken)
    (s' : ParseState) (h : parseStep cfg s ct = .cont s') (hc : s.closed = true) :
    s'.closed = true := by
  rcases ct with ⟨k, a⟩
  cases k <;>
    simp only [parseStep, NewickTokenKind.isUnknown, NewickTokenKind.isOBracket,
      NewickTokenKind.isSymbol, NewickTokenKind.isString, NewickTokenKind.isNumber,
      NewickTokenKind.isTag, NewickTokenKind.isComment, NewickTokenKind.isComma,
      NewickTokenKind.isCBracket, NewickTokenKind.isSemicolon,
      Bool.false_or, Bool.or_false, Bool.true_or, Bool.or_true,
      Bool.not_true, Bool.not_false] at h <;>
    repeat' split at h
  all_goals cases h
  all_goals simp_all

-- ----- message distinctness --------------------------------------------

/-- Two strings that already differ within the first `k` characters of a
common prefix stay different after appending. -/
theorem append_ne_of_take_ne (p tgt : String) (k : Nat) (hk : k ≤ p.data.length)
    (h : p.data.take k ≠ tgt.data.take k) (x : String) : p ++ x ≠ tgt := by
  intro he
  apply h
  have hd : p.data ++ x.data = tgt.data := by rw [← String.data_append, he]
  rw [← hd, List.take_append_of_le_length hk]

/-- No mid-stream error message equals the unterminated-stream message. -/
theorem step_fail_msg_ne (cfg : NewickConfig) (s : ParseState) (ct : NewickToken)
    (m : String) (s' : ParseState) (h : parseStep cfg s ct = .fail m s') :
    m ≠ unterminatedMsg := by
  rcases ct with ⟨k, a⟩
  cases k <;>
    simp only [parseStep, NewickTokenKind.isUnknown, NewickTokenKind.isOBracket,
      NewickTokenKind.isSymbol, NewickTokenKind.isString, NewickTokenKind.isNumber,
      NewickTokenKind.isTag, NewickTokenKind.isComment, NewickTokenKind.isComma,
      NewickTokenKind.isCBracket, NewickTokenKind.isSemicolon,
      Bool.false_or, Bool.or_false, Bool.true_or, Bool.or_true,
      Bool.not_true, Bool.not_false] at h <;>
    repeat' split at h
  all_goals cases h
  all_goals first
    | exact append_ne_of_take_ne _ _ 1 (by decide) (by decide) _
    | exact append_ne_of_take_ne _ _ 9 (by decide) (by decide) _
    | exact append_ne_of_take_ne _ _ 19 (by decide) (by decide) _

-- ----- loop lemmas ------------------------------------------------------

/-- On failure, every broker element pushed before the error remains in the
broker handed back to the caller. -/
theorem parseLoop_failure_suffix (cfg : NewickConfig) :
    ∀ (ts : List NewickToken) (s : ParseState) (m : String)
      (b : List NewickBrokerElement),
      parseLoop cfg s ts = .failure m b → List.IsSuffix s.broker b
  | [], s, m, b, h => by
    cases h
    exact List.suffix_refl _
  | ct :: ts, s, m, b, h => by
    simp only [parseLoop] at h
    cases hs : parseStep cfg s ct with
    | cont s' =>
      simp only [hs] at h
      exact (step_cont_broker cfg s ct s' hs).trans
        (parseLoop_failure_suffix cfg ts s' m b h)
    | done s' => simp only [hs] at h; cases h
    | fail m' s' =>
      simp only [hs] at h
      cases h
      rw [step_fail_state cfg s ct _ s' hs]
    | thrown s' => simp only [hs] at h; cases h

/-- A successful parse consumes a prefix ending in the terminating `;` and
returns exactly the tokens after it. -/
theorem parseLoop_success_split (cfg : NewickConfig) :
    ∀ (ts : List NewickToken) (s : ParseState) (b : List NewickBrokerElement)
      (rest : List NewickToken),
      parseLoop cfg s ts = .success b rest →
      ∃ pre sc, ts = pre ++ sc :: rest ∧ sc.kind = .semicolon
  | [], _, _, _, h => by cases h
  | ct :: ts, s, b, rest, h => by
    simp only [parseLoop] at h
    cases hs : parseStep cfg s ct with
    | cont s' =>
      simp only [hs] at h
      obtain ⟨pre, sc, hts, hsc⟩ := parseLoop_success_split cfg ts s' b rest h
      exact ⟨ct :: pre, sc, by rw [hts]; rfl, hsc⟩
    | done s' =>
      simp only [hs] at h
      cases h
      exact ⟨[], ct, rfl, step_done_semicolon cfg s ct s' hs⟩
    | fail m' s' => simp only [hs] at h; cases h
    | thrown s' => simp only [hs] at h; cases h

/-- In a closed state, an `(` token always produces a parse error (either
the previous-token check or the reopen check fires). -/
theorem step_closed_obracket_fails (cfg : NewickConfig) (s : ParseState) (a : String)
    (hc : s.closed = true) :
    ∃ m s', parseStep cfg s ⟨.obracket, a⟩ = .fail m s' := by
  simp only [parseStep, NewickTokenKind.isUnknown, NewickTokenKind.isOBracket, hc,
    Bool.false_eq_true, if_false, if_true, ite_true, ite_false]
  split
  · exact ⟨_, _, rfl⟩
  · exact ⟨_, _, rfl⟩

/-- Starting closed, a successful parse never consumes another `(`. -/
theorem parseLoop_closed_no_reopen (cfg : NewickConfig) :
    ∀ (ts : List NewickToken) (s : ParseState) (b : List NewickBrokerElement)
      (rest : List NewickToken), s.closed = true →
      parseLoop cfg s ts = .success b rest →
      ∃ pre, ts = pre ++ rest ∧ ∀ tok ∈ pre, tok.kind ≠ .obracket
  | [], _, _, _, _, h => by cases h
  | ct :: ts, s, b, rest, hc, h => by
    simp only [parseLoop] at h
    cases hs : parseStep cfg s ct with
    | cont s' =>
      simp only [hs] at h
      obtain ⟨pre, hts, hpre⟩ :=
        parseLoop_closed_no_reopen cfg ts s' b rest (step_closed_mono cfg s ct s' hs hc) h
      refine ⟨ct :: pre, by rw [hts]; rfl, ?_⟩
      intro tok htok
      rcases List.mem_cons.mp htok with rfl | htok
      · intro hk
        rcases tok with ⟨k, a⟩
        cases hk
        obtain ⟨m, s'', hf⟩ := step_closed_obracket_fails cfg s a hc
        cases hs.symm.trans hf
      · exact hpre tok htok
    | done s' =>
      simp only [hs] at h
      cases h
      refine ⟨[ct], rfl, ?_⟩
      intro tok htok
      rcases List.mem_singleton.mp htok with rfl
      rw [step_done_semicolon cfg s tok s' hs]
      intro hk
      cases hk
    | fail m' s' => simp only [hs] at h; cases h
    | thrown s' => simp only [hs] at h; cases h

/-- C5: once a `)` brings the depth back to 0 the parser marks the tree
closed; in a closed state any `(` token is rejected as a parse error; and
consequently no accepted token stream contains a second top-level
parenthesized group (no `(` is ever consumed after the state closed). -/
theorem c5_closed_blocks_reopen :
    ∀ (cfg : NewickConfig) (s : ParseState) (a : String) (ts : List NewickToken)
      (b : List NewickBrokerElement) (rest : List NewickToken),
      (s.depth = 1 → ∀ s', parseStep cfg s ⟨.cbracket, a⟩ = .cont s' → s'.closed = true)
    ∧ (s.closed = true → ∃ m s', parseStep cfg s ⟨.obracket, a⟩ = .fail m s')
    ∧ (s.closed = true → parseLoop cfg s ts = .success b rest →
        ∃ pre, ts = pre ++ rest ∧ ∀ tok ∈ pre, tok.kind ≠ .obracket) := by
  intro cfg s a ts b rest
  refine ⟨?_, fun hc => step_closed_obracket_fails cfg s a hc,
    fun hc h => parseLoop_closed_no_reopen cfg ts s b rest hc h⟩
  intro hd s' h
  simp only [parseStep, NewickTokenKind.isUnknown, NewickTokenKind.isOBracket,
    NewickTokenKind.isSymbol, NewickTokenKind.isString, NewickTokenKind.isNumber,
    NewickTokenKind.isTag, NewickTokenKind.isComment, NewickTokenKind.isComma,
    NewickTokenKind.isCBracket, Bool.false_or, Bool.or_false,
    Bool.not_true, Bool.not_false] at h
  repeat' split at h
  all_goals cases h
  all_goals simp_all

/-- C5 witness: in a concretely closed state `(` fails, and a stream
consisting of the terminating `;` alone is accepted without consuming any
`(`. -/
theorem c5_witness :
    (∃ m s', parseStep {} ⟨[], none, 0, true, [tkn .cbracket]⟩ (tkn .obracket)
      = .fail m s')
    ∧ ∃ pre, ([tkn .semicolon] : List NewickToken) = pre ++ []
        ∧ ∀ tok ∈ pre, tok.kind ≠ .obracket :=
  ⟨(c5_closed_blocks_reopen {} ⟨[], none, 0, true, [tkn .cbracket]⟩ "" [tkn .semicolon]
      [⟨0, "", 0, [], [], false⟩] []).2.1 rfl,
   (c5_closed_blocks_reopen {} ⟨[], none, 0, true, [tkn .cbracket]⟩ "" [tkn .semicolon]
      [⟨0, "", 0, [], [], false⟩] []).2.2 rfl (by rfl)⟩

/-- C2 (amended): a parse error is reported as a failure with a message,
but the broker is NOT cleared on error — every element finalized before the
failure point remains visible to the caller.  The broker is instead cleared
at the start of each `ParseTree` call, which always begins from an empty
broker. -/
theorem c2_failure_keeps_broker :
    (∀ (cfg : NewickConfig) (s : ParseState) (ts : List NewickToken) (m : String)
       (b : List NewickBrokerElement),
       parseLoop cfg s ts = .failure m b → List.IsSuffix s.broker b)
    ∧ ∀ (cfg : NewickConfig) (ts : List NewickToken),
        ParseTree cfg ts = parseLoop cfg ⟨[], none, 0, false, []⟩ ts :=
  ⟨fun cfg s ts m b h => parseLoop_failure_suffix cfg ts s m b h, fun _ _ => rfl⟩

/-- C2 counterexample: parsing the truncated stream `(A,` fails, yet the
broker handed back still holds the element finalized for `A` — the partial
broker state is not discarded. -/
theorem c2_counterexample :
    ParseTree {} [tkn .obracket, tkn (.symbol "A"), tkn .comma]
      = .failure unterminatedMsg [⟨1, "A", 0, [], [], true⟩]
    ∧ ([⟨1, "A", 0, [], [], true⟩] : List NewickBrokerElement) ≠ [] :=
  ⟨by rfl, List.cons_ne_nil _ _⟩

/-- C2 witness: a concrete failing parse starting from a non-empty broker
keeps that broker as a suffix of the reported one. -/
theorem c2_witness :
    List.IsSuffix [(⟨0, "x", 0, [], [], false⟩ : NewickBrokerElement)]
      [⟨1, "A", 0, [], [], true⟩, ⟨0, "x", 0, [], [], false⟩] :=
  c2_failure_keeps_broker.1 {} ⟨[⟨0, "x", 0, [], [], false⟩], none, 0, false, []⟩
    [tkn .obracket, tkn (.symbol "A"), tkn .comma] unterminatedMsg
    [⟨1, "A", 0, [], [], true⟩, ⟨0, "x", 0, [], [], false⟩] (by rfl)

/-- C7 (amended): a stream exhausted by the loop is reported with exactly
the unterminated-tree message; a successful parse consumes a prefix ending
in the terminating `;` and leaves the iterator on the tokens after it; a
stream without any `;` can never parse successfully; and no mid-stream
grammar-error message coincides with the unterminated-tree message (the two
failure modes are distinct). -/
theorem c7_unterminated_and_iterator :
    (∀ (cfg : NewickConfig) (s : ParseState),
       parseLoop cfg s [] = .failure unterminatedMsg s.broker)
    ∧ (∀ (cfg : NewickConfig) (ts : List NewickToken) (b : List NewickBrokerElement)
         (rest : List NewickToken), ParseTree cfg ts = .success b rest →
         ∃ pre sc, ts = pre ++ sc :: rest ∧ sc.kind = .semicolon)
    ∧ (∀ (cfg : NewickConfig) (ts : List NewickToken) (b : List NewickBrokerElement)
         (rest : List NewickToken), (∀ tok ∈ ts, tok.kind ≠ .semicolon) →
         ParseTree cfg ts ≠ .success b rest)
    ∧ (∀ (cfg : NewickConfig) (s : ParseState) (ct : NewickToken) (m : String)
         (s' : ParseState), parseStep cfg s ct = .fail m s' → m ≠ unterminatedMsg) := by
  refine ⟨fun _ _ => rfl,
    fun cfg ts b rest h => parseLoop_success_split cfg ts _ b rest h, ?_,
    fun cfg s ct m s' h => step_fail_msg_ne cfg s ct m s' h⟩
  intro cfg ts b rest hnone h
  obtain ⟨pre, sc, hts, hsc⟩ := parseLoop_success_split cfg ts _ b rest h
  refine hnone sc ?_ hsc
  rw [hts]
  exact List.mem_append_right _ (List.mem_cons_self _ _)

/-- C7 counterexample: the stream `( 1x` (a malformed number) ends without
a `;` yet the parser raises the `std::stod` exception instead of reporting
a boolean failure. -/
theorem c7_counterexample :
    ParseTree {} [tkn .obracket, tkn (.number "x")] = .thrown []
    ∧ (([tkn .obracket, tkn (.number "x")] : List NewickToken).all
        fun tok => !(tok.kind.isSemicolon)) = true :=
  ⟨by rfl, by rfl⟩

/-- C7 witness: a successful concrete parse of `(A);Z` splits the stream at
the terminating semicolon, leaving `Z` for the caller. -/
theorem c7_witness :
    ∃ pre sc, ([tkn .obracket, tkn (.symbol "A"), tkn .cbracket, tkn .semicolon,
        tkn (.symbol "Z")] : List NewickToken)
      = pre ++ sc :: [tkn (.symbol "Z")] ∧ sc.kind = .semicolon :=
  c7_unterminated_and_iterator.2.1 {}
    [tkn .obracket, tkn (.symbol "A"), tkn .cbracket, tkn .semicolon, tkn (.symbol "Z")]
    [⟨0, "", 0, [], [], false⟩, ⟨1, "A", 0, [], [], true⟩]
    [tkn (.symbol "Z")] (by rfl)

/-- C1 counterexample: the bare-leaf stream `A;` — which the token grammar
`Tree := Subtree ';'` with `Subtree := Leaf` admits — is rejected by the
parser with a "Tree does not start with (" failure. -/
theorem c1_counterexample :
    ParseTree {} [⟨.symbol "A", "1:1"⟩, ⟨.semicolon, "1:2"⟩]
      = .failure (noStartMsg ⟨.symbol "A", "1:1"⟩) [] := by rfl

/-- C1 (amended): `ParseTree` only accepts token streams whose first token
is `(` or a comment.  Every stream whose first token is a Name fails
immediately with the "Tree does not start with (" message — in particular
every bare-leaf tree such as `A;` or `A:1.0;` — while the same bare leaf
preceded by a comment token is parsed successfully. -/
theorem c1_bare_leaf_rejected :
    (∀ (cfg : NewickConfig) (nm a : String) (rest : List NewickToken),
       ParseTree cfg (⟨.symbol nm, a⟩ :: rest)
         = .failure (noStartMsg ⟨.symbol nm, a⟩) [])
    ∧ ParseTree {} [tkn (.comment "c"), tkn (.symbol "A"), tkn .semicolon]
        = .success [⟨0, "A", 0, [], [], false⟩] [] := by
  constructor
  · intro cfg nm a rest
    rfl
  · rfl

/-- C3 (amended): in a branch-length position the parser hands the Number
token's text to `std::stod`: a parseable value is stored as the element's
branch length (never silently zeroed), while a malformed value makes
`std::stod` throw an exception that `ParseTree` does not catch — the
failure is not reported as a boolean parse error. -/
theorem c3_stod_behavior :
    ∀ (cfg : NewickConfig) (s : ParseState) (pt : NewickToken)
      (tl : List NewickToken) (a txt : String),
      s.prev = pt :: tl →
      (pt.kind.isOBracket || pt.kind.isCBracket || pt.kind.isSymbol ||
       pt.kind.isString || pt.kind.isComment || pt.kind.isComma) = true →
      (stodQ txt = none → parseStep cfg s ⟨.number txt, a⟩ = .thrown s)
      ∧ ∀ q, stodQ txt = some q →
          parseStep cfg s ⟨.number txt, a⟩ =
            .cont { s with
                    node := some { ensureNode s with branch_length := q }
                    prev := ⟨.number txt, a⟩ :: s.prev } := by
  intro cfg s pt tl a txt hprev hpt
  have hstep : parseStep cfg s ⟨.number txt, a⟩ =
      match stodQ txt with
      | none => .thrown s
      | some q => .cont { s with
                          node := some { ensureNode s with branch_length := q }
                          prev := ⟨.number txt, a⟩ :: s.prev } := by
    rcases pt with ⟨pk, pa⟩
    cases pk <;>
      simp_all [parseStep, NewickTokenKind.isUnknown, NewickTokenKind.isOBracket,
        NewickTokenKind.isSymbol, NewickTokenKind.isString, NewickTokenKind.isNumber,
        NewickTokenKind.isTag, NewickTokenKind.isComment, NewickTokenKind.isComma,
        NewickTokenKind.isCBracket, NewickTokenKind.isSemicolon, NewickToken.value]
  constructor
  · intro h
    rw [hstep, h]
  · intro q h
    rw [hstep, h]

/-- C3 counterexample: on the stream `( abc` (with `abc` lexed as a Number
token) the parser raises the uncaught `std::stod` exception instead of
reporting a boolean parse failure, and no branch length is set. -/
theorem c3_counterexample :
    ParseTree {} [tkn .obracket, tkn (.number "abc")] = .thrown [] := by rfl

/-- C3 witness: the step theorem applied to a concrete malformed number. -/
theorem c3_witness :
    parseStep {} ⟨[], none, 1, false, [tkn .obracket]⟩ ⟨.number "abc", ""⟩
      = .thrown ⟨[], none, 1, false, [tkn .obracket]⟩ :=
  (c3_stod_behavior {} ⟨[], none, 1, false, [tkn .obracket]⟩ (tkn .obracket) [] "" "abc"
    rfl (by rfl)).1 (by rfl)

/-- C6: an unquoted Name token stores the element name with every
underscore replaced by a space; a QuotedString token stores the text
verbatim; and the element serializer emits the name with every space
re-encoded as an underscore, in front of the rest of the element string. -/
theorem c6_name_coding :
    (∀ (cfg : NewickConfig) (s : ParseState) (pt : NewickToken)
       (tl : List NewickToken) (a txt : String), s.prev = pt :: tl →
       (pt.kind.isOBracket || pt.kind.isCBracket || pt.kind.isComma ||
        pt.kind.isComment) = true →
       parseStep cfg s ⟨.symbol txt, a⟩ =
         .cont { s with
                 node := some { ensureNode s with name := replaceAllChar '_' ' ' txt }
                 prev := ⟨.symbol txt, a⟩ :: s.prev })
    ∧ (∀ (cfg : NewickConfig) (s : ParseState) (pt : NewickToken)
         (tl : List NewickToken) (a txt : String), s.prev = pt :: tl →
         (pt.kind.isOBracket || pt.kind.isCBracket || pt.kind.isComma ||
          pt.kind.isComment) = true →
         parseStep cfg s ⟨.qstring txt, a⟩ =
           .cont { s with
                   node := some { ensureNode s with name := txt }
                   prev := ⟨.qstring txt, a⟩ :: s.prev })
    ∧ ∀ (fmt : ℚ → Nat → String) (pc : NewickPrintConfig) (bn : NewickBrokerElement),
        ElementToString fmt pc bn =
          (if pc.print_names then replaceAllChar ' ' '_' bn.name else "")
          ++ ElementToString fmt { pc with print_names := false } bn := by
  refine ⟨?_, ?_, ?_⟩
  · intro cfg s pt tl a txt hprev hpt
    rcases pt with ⟨pk, pa⟩
    cases pk <;>
      simp_all [parseStep, NewickTokenKind.isUnknown, NewickTokenKind.isOBracket,
        NewickTokenKind.isSymbol, NewickTokenKind.isString, NewickTokenKind.isNumber,
        NewickTokenKind.isTag, NewickTokenKind.isComment, NewickTokenKind.isComma,
        NewickTokenKind.isCBracket, NewickTokenKind.isSemicolon, NewickToken.value]
  · intro cfg s pt tl a txt hprev hpt
    rcases pt with ⟨pk, pa⟩
    cases pk <;>
      simp_all [parseStep, NewickTokenKind.isUnknown, NewickTokenKind.isOBracket,
        NewickTokenKind.isSymbol, NewickTokenKind.isString, NewickTokenKind.isNumber,
        NewickTokenKind.isTag, NewickTokenKind.isComment, NewickTokenKind.isComma,
        NewickTokenKind.isCBracket, NewickTokenKind.isSemicolon, NewickToken.value]
  · intro fmt pc bn
    cases hpn : pc.print_names <;>
      simp [ElementToString, hpn, String.append_assoc]

/-- C6 witness: a concrete symbol token `a_b` stored as `a b`, and a
concrete quoted token `a_b` stored verbatim. -/
theorem c6_witness :
    parseStep {} ⟨[], none, 1, false, [tkn .obracket]⟩ ⟨.symbol "a_b", ""⟩
      = .cont ⟨[], some ⟨1, "a b", 0, [], [], true⟩, 1, false,
               [⟨.symbol "a_b", ""⟩, tkn .obracket]⟩
    ∧ parseStep {} ⟨[], none, 1, false, [tkn .obracket]⟩ ⟨.qstring "a_b", ""⟩
      = .cont ⟨[], some ⟨1, "a_b", 0, [], [], true⟩, 1, false,
               [⟨.qstring "a_b", ""⟩, tkn .obracket]⟩ := by
  constructor
  · have h := c6_name_coding.1 {} ⟨[], none, 1, false, [tkn .obracket]⟩
      (tkn .obracket) [] "" "a_b" rfl (by rfl)
    rw [h]
    rfl
  · have h := c6_name_coding.2.1 {} ⟨[], none, 1, false, [tkn .obracket]⟩
      (tkn .obracket) [] "" "a_b" rfl (by rfl)
    rw [h]
    rfl

-- ----- lexer lemmas -----------------------------------------------------

theorem getCharAt_nat (text : List Char) (k : Nat) (h : k < text.length) :
    getCharAt text (k : Int) = text.getD k '\x00' := by
  unfold getCharAt
  have h0 : ¬((k : Int) < 0) := by omega
  have h1 : ¬((text.length : Int) ≤ (k : Int)) := by exact_mod_cast Nat.not_le.mpr h
  simp [h0, h1]

theorem getCharAt_oob (text : List Char) (k : Nat) (h : text.length ≤ k) :
    getCharAt text (k : Int) = '\x00' := by
  unfold getCharAt
  have h1 : (text.length : Int) ≤ (k : Int) := by exact_mod_cast h
  simp [h1]

theorem nextChar_itr (text : List Char) (s : LexerPos) :
    (NextChar text s).itr = s.itr + 1 := by
  simp only [NextChar]
  split <;> rfl

/-- The step `NextChar` counts exactly the in-range break positions `p ≥ 1`. -/
theorem nextChar_line (text : List Char) (s : LexerPos) :
    (NextChar text s).line = s.line +
      (if (decide (s.itr + 1 < text.length) && isBreakAt text (s.itr + 1)) = true
       then 1 else 0) := by
  simp only [NextChar]
  rcases Nat.lt_or_ge (s.itr + 1) text.length with h | h
  · have e1 : getCharAt text ((s.itr + 1 : Nat) : Int) = text.getD (s.itr + 1) '\x00' :=
      getCharAt_nat text (s.itr + 1) h
    have e2 : ((s.itr + 1 : Nat) : Int) - 1 = ((s.itr : Nat) : Int) := by push_cast; ring
    have e3 : getCharAt text ((s.itr : Nat) : Int) = text.getD s.itr '\x00' :=
      getCharAt_nat text s.itr (Nat.lt_of_succ_lt h)
    have hd : decide (s.itr + 1 < text.length) = true := decide_eq_true h
    simp only [e1, e2, e3, isBreakAt, hd, Bool.true_and, Nat.add_sub_cancel]
    split <;> simp_all
  · have e1 : getCharAt text ((s.itr + 1 : Nat) : Int) = '\x00' := getCharAt_oob text _ h
    have hnot : ¬(s.itr + 1 < text.length) := by omega
    have hd : decide (s.itr + 1 < text.length) = false := decide_eq_false hnot
    simp only [e1, hd, Bool.false_and]
    split <;> simp_all

theorem breaksBetween_zero (text : List Char) :
    ∀ (fuel k : Nat), text.length ≤ k → breaksBetween text k fuel = 0
  | 0, _, _ => rfl
  | fuel+1, k, h => by
    rw [breaksBetween, breaksBetween_zero text fuel (k+1) (Nat.le_succ_of_le h)]
    have hnot : ¬(k + 1 < text.length) := by omega
    simp [hnot]

/-- The scan loop adds exactly the in-range break count of the positions it
lands on. -/
theorem scanFrom_line (text : List Char) :
    ∀ (fuel : Nat) (s : LexerPos),
      (scanFrom text fuel s).line = s.line + (breaksBetween text s.itr fuel : Int)
  | 0, s => by simp [scanFrom, breaksBetween]
  | fuel+1, s => by
    rw [scanFrom]
    split
    · rename_i hle
      rw [breaksBetween_zero text (fuel+1) s.itr hle]
      simp
    · rename_i hlt
      rw [scanFrom_line text fuel (NextChar text s), nextChar_line, nextChar_itr,
        breaksBetween]
      split <;> push_cast <;> ring

/-- C4 (amended): after scanning any text the line counter equals one plus
the number of line-break positions `p ≥ 1` — a line feed counts unless it
directly follows a carriage return, a carriage return always counts, so a
CR+LF pair strictly inside the text counts exactly once; but a line break
at position 0 (including a leading CR+LF) is never counted, because
`NextChar` never lands on position 0. -/
theorem c4_crlf_line_count :
    ∀ (text : List Char), (scanText text).line = 1 + (codeLineBreaks text : Int) := by
  intro text
  unfold scanText codeLineBreaks
  rw [scanFrom_line]

/-- C4 counterexample: the text consisting of a single CR+LF pair contains
one line break under the claim's metric, yet after scanning the line
counter still reads 1, not 2. -/
theorem c4_counterexample :
    (scanText ['\r', '\n']).line ≠ 1 + (specLineBreaks ['\r', '\n'] : Int) := by decide

/-- C10: `GetCharType` is total and in-bounds on every possible (signed)
char value: the 128-entry table is exactly 128 entries long, a negative
char yields `kError` without any table access, and a char in 0..127 indexes
the table strictly within bounds. -/
theorem c10_char_type_safe :
    ∀ c : Int, -128 ≤ c → c ≤ 127 →
      start_char_table.length = 128
      ∧ (c < 0 → GetCharType c = .kError)
      ∧ (0 ≤ c → c.toNat < start_char_table.length
          ∧ GetCharType c = start_char_table.getD c.toNat .kError) := by
  intro c h1 h2
  refine ⟨by rfl, fun hneg => by simp [GetCharType, hneg], fun hnn => ⟨?_, ?_⟩⟩
  · have hlen : start_char_table.length = 128 := by rfl
    rw [hlen]
    omega
  · have hnot : ¬(c < 0) := by omega
    simp [GetCharType, hnot]

/-- C10 witness: a negative char and the char `A` (65). -/
theorem c10_witness :
    ((-5 : Int) < 0 → GetCharType (-5) = .kError)
    ∧ (0 ≤ (65 : Int) → (65 : Int).toNat < start_char_table.length
        ∧ GetCharType 65 = start_char_table.getD (65 : Int).toNat .kError) :=
  ⟨(c10_char_type_safe (-5) (by decide) (by decide)).2.1,
   (c10_char_type_safe 65 (by decide) (by decide)).2.2⟩

/-- C8: on the tree built from `((B,(D,E)C)A,F,(H,I)G)R;` (tokens through
the real parser, broker through the builder), rerooting at node `R`'s own
primary link yields the levelorder (depth, name) sequence
`0R 1A 1F 1G 2B 2C 2H 2I 3D 3E`, rerooting at node `A`'s link yields
`0A 1R 1B 1C 2F 2G 2D 2E 3H 3I`, and `validate_topology` holds after both
reroots. -/
theorem c8_reroot_levelorder :
    levelorder (reroot demoTree (nodeAt demoTree (findNodeIdx demoTree "R")).primary)
      = [(0, "R"), (1, "A"), (1, "F"), (1, "G"), (2, "B"), (2, "C"), (2, "H"), (2, "I"),
         (3, "D"), (3, "E")]
    ∧ levelorder (reroot demoTree (nodeAt demoTree (findNodeIdx demoTree "A")).primary)
      = [(0, "A"), (1, "R"), (1, "B"), (1, "C"), (2, "F"), (2, "G"), (2, "D"), (2, "E"),
         (3, "H"), (3, "I")]
    ∧ validate_topology
        (reroot demoTree (nodeAt demoTree (findNodeIdx demoTree "R")).primary) = true
    ∧ validate_topology
        (reroot demoTree (nodeAt demoTree (findNodeIdx demoTree "A")).primary) = true :=
  ⟨by rfl, by rfl, by rfl, by rfl⟩

-- ----- validate_topology extraction ------------------------------------

theorem getD_mem {α : Type} : ∀ (l : List α) (i : Nat) (d : α), i < l.length →
    l.getD i d ∈ l
  | a :: _, 0, _, _ => List.mem_cons_self a _
  | a :: l, i+1, d, h => List.mem_cons_of_mem a (getD_mem l i d (Nat.lt_of_succ_lt_succ h))
  | [], _, _, h => absurd h (by simp)

theorem validate_parts (t : ArenaTree) (h : validate_topology t = true) :
    chkCounts t = true ∧ chkLinkBounds t = true ∧ chkNodePrimary t = true
    ∧ chkOuter t = true ∧ chkEdges t = true ∧ chkLinkSide t = true
    ∧ chkOrientation t = true ∧ chkCycles t = true ∧ chkChains t = true
    ∧ chkRootUnique t = true := by
  unfold validate_topology at h
  simp only [Bool.and_eq_true] at h
  tauto

theorem chkLinkBounds_at (t : ArenaTree) (h : chkLinkBounds t = true) (i : Nat)
    (hi : i < t.links.length) :
    (linkAt t i).node < t.nodes.length ∧ (linkAt t i).edge < t.edges.length
    ∧ (linkAt t i).next < t.links.length ∧ (linkAt t i).outer < t.links.length := by
  unfold chkLinkBounds at h
  rw [List.all_eq_true] at h
  have hm := h (linkAt t i) (getD_mem t.links i _ hi)
  simp only [Bool.and_eq_true, decide_eq_true_eq] at hm
  tauto

theorem chkNodePrimary_at (t : ArenaTree) (h : chkNodePrimary t = true) (v : Nat)
    (hv : v < t.nodes.length) :
    (nodeAt t v).primary < t.links.length ∧ (linkAt t (nodeAt t v).primary).node = v := by
  unfold chkNodePrimary at h
  rw [List.all_eq_true] at h
  have hm := h v (List.mem_range.mpr hv)
  simp only [Bool.and_eq_true, decide_eq_true_eq, beq_iff_eq] at hm
  exact hm

theorem chkLinkSide_at (t : ArenaTree) (h : chkLinkSide t = true) (i : Nat)
    (hi : i < t.links.length) :
    (edgeAt t (linkAt t i).edge).primary_link = i
    ∨ (edgeAt t (linkAt t i).edge).secondary_link = i := by
  unfold chkLinkSide at h
  rw [List.all_eq_true] at h
  have hm := h i (List.mem_range.mpr hi)
  simp only [Bool.or_eq_true, beq_iff_eq] at hm
  exact hm

theorem chkOrientation_at (t : ArenaTree) (h : chkOrientation t = true) (i : Nat)
    (hi : i < t.links.length) :
    (nodeAt t (linkAt t i).node).primary = i
    ∨ (edgeAt t (linkAt t i).edge).primary_link = i := by
  unfold chkOrientation at h
  rw [List.all_eq_true] at h
  have hm := h i (List.mem_range.mpr hi)
  simp only [Bool.or_eq_true, beq_iff_eq] at hm
  exact hm

theorem chkEdges_at (t : ArenaTree) (h : chkEdges t = true) (e : Nat)
    (he : e < t.edges.length) :
    (linkAt t (edgeAt t e).primary_link).edge = e
    ∧ (linkAt t (edgeAt t e).secondary_link).edge = e
    ∧ (linkAt t (edgeAt t e).primary_link).outer = (edgeAt t e).secondary_link
    ∧ (linkAt t (edgeAt t e).secondary_link).outer = (edgeAt t e).primary_link
    ∧ (edgeAt t e).primary_link ≠ (edgeAt t e).secondary_link := by
  unfold chkEdges at h
  rw [List.all_eq_true] at h
  have hm := h e (List.mem_range.mpr he)
  simp only [Bool.and_eq_true, beq_iff_eq, decide_eq_true_eq, Bool.not_eq_true',
    beq_eq_false_iff_ne, ne_eq] at hm
  tauto

theorem chkChains_at (t : ArenaTree) (h : chkChains t = true) (v : Nat)
    (hv : v < t.nodes.length) : (chainNodes t v).Nodup := by
  unfold chkChains at h
  rw [List.all_eq_true] at h
  have hm := h v (List.mem_range.mpr hv)
  simp only [Bool.and_eq_true, decide_eq_true_eq] at hm
  exact hm.1

-- ----- fold lemmas for reroot ------------------------------------------

theorem foldRev_links (t : ArenaTree) : ∀ (cs : List Nat) (acc : ArenaTree),
    (cs.foldl (applyRev t) acc).links = acc.links
  | [], _ => rfl
  | c :: cs, acc => by
    rw [List.foldl_cons, foldRev_links t cs]
    rfl

theorem foldRev_nodes_len (t : ArenaTree) : ∀ (cs : List Nat) (acc : ArenaTree),
    (cs.foldl (applyRev t) acc).nodes.length = acc.nodes.length
  | [], _ => rfl
  | c :: cs, acc => by
    rw [List.foldl_cons, foldRev_nodes_len t cs]
    exact List.length_set _ _ _

theorem foldRev_edges_len (t : ArenaTree) : ∀ (cs : List Nat) (acc : ArenaTree),
    (cs.foldl (applyRev t) acc).edges.length = acc.edges.length
  | [], _ => rfl
  | c :: cs, acc => by
    rw [List.foldl_cons, foldRev_edges_len t cs]
    exact List.length_set _ _ _

theorem foldRev_nodeAt (t : ArenaTree) : ∀ (cs : List Nat) (acc : ArenaTree) (v : Nat),
    (∀ c ∈ cs, (linkAt t ((linkAt t c).outer)).node ≠ v) →
    nodeAt (cs.foldl (applyRev t) acc) v = nodeAt acc v
  | [], _, _, _ => rfl
  | c :: cs, acc, v, h => by
    rw [List.foldl_cons,
      foldRev_nodeAt t cs _ v (fun c' hc' => h c' (List.mem_cons_of_mem c hc'))]
    exact listGetDSetNe _ _ _ _ _ (h c (List.mem_cons_self c cs))

theorem foldRev_edgeAt (t : ArenaTree) : ∀ (cs : List Nat) (acc : ArenaTree) (e : Nat),
    (∀ c ∈ cs, (linkAt t c).edge ≠ e) →
    edgeAt (cs.foldl (applyRev t) acc) e = edgeAt acc e
  | [], _, _, _ => rfl
  | c :: cs, acc, e, h => by
    rw [List.foldl_cons,
      foldRev_edgeAt t cs _ e (fun c' hc' => h c' (List.mem_cons_of_mem c hc'))]
    exact listGetDSetNe _ _ _ _ _ (h c (List.mem_cons_self c cs))

theorem applyRev_edgeAt_self (t : ArenaTree) (acc : ArenaTree) (c : Nat)
    (he : (linkAt t c).edge < acc.edges.length) :
    edgeAt (applyRev t acc c) ((linkAt t c).edge)
      = flipEdge (edgeAt t ((linkAt t c).edge)) :=
  listGetDSetSelf _ _ _ _ he

-- ----- upLinks structural lemmas ---------------------------------------

/-- Every traversed link failed the root-side stop check. -/
theorem upLinks_not_root_side (t : ArenaTree) : ∀ (fuel v : Nat),
    ∀ c ∈ upLinks t fuel v, (edgeAt t (linkAt t c).edge).primary_link ≠ c
  | 0, v => by simp [upLinks]
  | fuel+1, v => by
    intro c hc
    rw [upLinks] at hc
    split at hc
    · cases hc
    · rcases List.mem_cons.mp hc with rfl | hc'
      · assumption
      · exact upLinks_not_root_side t fuel _ c hc'

/-- Every traversed link index is in bounds. -/
theorem upLinks_bounds (t : ArenaTree) (hnp : chkNodePrimary t = true)
    (hlb : chkLinkBounds t = true) : ∀ (fuel v : Nat), v < t.nodes.length →
    ∀ c ∈ upLinks t fuel v, c < t.links.length
  | 0, v, _ => by simp [upLinks]
  | fuel+1, v, hv => by
    intro c hc
    rw [upLinks] at hc
    split at hc
    · cases hc
    · rcases List.mem_cons.mp hc with rfl | hc'
      · exact (chkNodePrimary_at t hnp v hv).1
      · have hc0 : (nodeAt t v).primary < t.links.length := (chkNodePrimary_at t hnp v hv).1
        have ho : (linkAt t (nodeAt t v).primary).outer < t.links.length :=
          (chkLinkBounds_at t hlb _ hc0).2.2.2
        have hw : (linkAt t ((linkAt t (nodeAt t v).primary).outer)).node < t.nodes.length :=
          (chkLinkBounds_at t hlb _ ho).1
        exact upLinks_bounds t hnp hlb fuel _ hw c hc'

/-- The nodes owning the traversed links are the chain of visited nodes
without its last element (the old root, which contributes no link). -/
theorem upLinks_node_map (t : ArenaTree) (hnp : chkNodePrimary t = true)
    (hlb : chkLinkBounds t = true) : ∀ (fuel v : Nat), v < t.nodes.length →
    (upLinks t fuel v).map (fun c => (linkAt t c).node)
      = (v :: (upLinks t fuel v).map
          fun c => (linkAt t ((linkAt t c).outer)).node).dropLast
  | 0, v, _ => by simp [upLinks]
  | fuel+1, v, hv => by
    rw [upLinks]
    split
    · simp
    · rename_i hcond
      have hb : (nodeAt t v).primary < t.links.length := (chkNodePrimary_at t hnp v hv).1
      have hn : (linkAt t (nodeAt t v).primary).node = v := (chkNodePrimary_at t hnp v hv).2
      have ho : (linkAt t (nodeAt t v).primary).outer < t.links.length :=
        (chkLinkBounds_at t hlb _ hb).2.2.2
      have hw : (linkAt t ((linkAt t (nodeAt t v).primary).outer)).node
          < t.nodes.length := (chkLinkBounds_at t hlb _ ho).1
      have ih := upLinks_node_map t hnp hlb fuel _ hw
      simp only [List.map_cons, hn]
      rw [ih]
      rfl

/-- If the chain of visited nodes has no duplicates, neither has the list
of traversed links. -/
theorem upLinks_nodup (t : ArenaTree) (hnp : chkNodePrimary t = true)
    (hlb : chkLinkBounds t = true) (v : Nat) (hv : v < t.nodes.length)
    (hch : (chainNodes t v).Nodup) : (upLinks t t.nodes.length v).Nodup := by
  have hmap := upLinks_node_map t hnp hlb t.nodes.length v hv
  have hdl : ((chainNodes t v).dropLast).Nodup :=
    List.Nodup.sublist (List.dropLast_sublist _) hch
  rw [chainNodes, ← hmap] at hdl
  exact List.Nodup.of_map _ hdl

theorem linkAt_of_links_eq {t t' : ArenaTree} (h : t'.links = t.links) (i : Nat) :
    linkAt t' i = linkAt t i := by
  unfold linkAt
  rw [h]

/-- The zeta-reduced unfolding of `reroot`. -/
theorem reroot_def (t : ArenaTree) (L : Nat) :
    reroot t L = List.foldl (applyRev t)
      { t with
        nodes := t.nodes.set ((linkAt t L).node)
          { nodeAt t ((linkAt t L).node) with primary := L } }
      (upLinks t t.nodes.length ((linkAt t L).node)) := rfl

/-- When `L` already satisfies the root-link conditions the walk of
`reroot` is empty and the tree is returned unchanged. -/
theorem reroot_noop_of_rootish (t : ArenaTree) (L : Nat)
    (hn : (linkAt t L).node < t.nodes.length)
    (hp : (nodeAt t (linkAt t L).node).primary = L)
    (hr : (edgeAt t (linkAt t L).edge).primary_link = L) :
    reroot t L = t := by
  rw [reroot_def]
  obtain ⟨m, hm⟩ : ∃ m, t.nodes.length = m + 1 := ⟨t.nodes.length - 1, by omega⟩
  rw [hm]
  rw [upLinks]
  simp only [hp]
  rw [if_pos hr]
  simp only [List.foldl_nil]
  have hrec : ∀ x : ArenaNode, x.primary = L → { x with primary := L } = x := by
    intro x hx
    cases x
    simp_all
  rw [hrec _ hp]
  unfold nodeAt
  rw [listSetGetDSelf _ _ _ hn]

/-- The effect of `reroot` on a valid tree: the links are untouched, the
node/edge counts are unchanged, the new root node's primary link becomes
`L`, and `L` ends up on the primary side of its edge. -/
theorem reroot_facts (t : ArenaTree) (L : Nat) (hv : validate_topology t = true)
    (hL : L < t.links.length) :
    (reroot t L).links = t.links
    ∧ (reroot t L).nodes.length = t.nodes.length
    ∧ (reroot t L).edges.length = t.edges.length
    ∧ (nodeAt (reroot t L) ((linkAt t L).node)).primary = L
    ∧ (edgeAt (reroot t L) ((linkAt t L).edge)).primary_link = L := by
  obtain ⟨hcnt, hlb, hnp, hout, hedg, hside, hori, hcyc, hchn, hru⟩ := validate_parts t hv
  have hn : (linkAt t L).node < t.nodes.length := (chkLinkBounds_at t hlb L hL).1
  have heL : (linkAt t L).edge < t.edges.length := (chkLinkBounds_at t hlb L hL).2.1
  have hchain : (chainNodes t ((linkAt t L).node)).Nodup :=
    chkChains_at t hchn ((linkAt t L).node) hn
  have hcsnodup : (upLinks t t.nodes.length ((linkAt t L).node)).Nodup :=
    upLinks_nodup t hnp hlb ((linkAt t L).node) hn hchain
  have halpha : ∀ c ∈ upLinks t t.nodes.length ((linkAt t L).node),
      (linkAt t ((linkAt t c).outer)).node ≠ (linkAt t L).node := by
    intro c hc heq
    have hmem : (linkAt t ((linkAt t c).outer)).node ∈
        (upLinks t t.nodes.length ((linkAt t L).node)).map
          (fun c => (linkAt t ((linkAt t c).outer)).node) :=
      List.mem_map_of_mem _ hc
    have hni := (List.nodup_cons.mp hchain).1
    exact hni (heq ▸ hmem)
  refine ⟨?_, ?_, ?_, ?_, ?_⟩
  · rw [reroot_def, foldRev_links]
  · rw [reroot_def, foldRev_nodes_len]
    exact List.length_set _ _ _
  · rw [reroot_def, foldRev_edges_len]
  · rw [reroot_def, foldRev_nodeAt t _ _ _ halpha]
    unfold nodeAt
    rw [listGetDSetSelf _ _ _ _ hn]
  · by_cases hC : (nodeAt t ((linkAt t L).node)).primary = L
    · by_cases hcond : (edgeAt t (linkAt t L).edge).primary_link = L
      · have hcs : upLinks t t.nodes.length ((linkAt t L).node) = [] := by
          obtain ⟨m, hm⟩ : ∃ m, t.nodes.length = m + 1 := ⟨t.nodes.length - 1, by omega⟩
          rw [hm, upLinks]
          simp only [hC]
          rw [if_pos hcond]
        rw [reroot_def, hcs]
        simp only [List.foldl_nil]
        exact hcond
      · have hcs : upLinks t t.nodes.length ((linkAt t L).node)
            = L :: upLinks t (t.nodes.length - 1)
                ((linkAt t ((linkAt t L).outer)).node) := by
          obtain ⟨m, hm⟩ : ∃ m, t.nodes.length = m + 1 := ⟨t.nodes.length - 1, by omega⟩
          rw [hm, upLinks]
          simp only [hC]
          rw [if_neg hcond]
          have hm' : m = t.nodes.length - 1 := by omega
          rw [hm']
          have hsimp : t.nodes.length - 1 + 1 - 1 = t.nodes.length - 1 := by omega
          rw [hsimp]
        have hsecL : (edgeAt t (linkAt t L).edge).secondary_link = L :=
          (chkLinkSide_at t hside L hL).resolve_left hcond
        have hrest : ∀ c ∈ upLinks t (t.nodes.length - 1)
            ((linkAt t ((linkAt t L).outer)).node),
            (linkAt t c).edge ≠ (linkAt t L).edge := by
          intro c hc heq
          have hcmem : c ∈ upLinks t t.nodes.length ((linkAt t L).node) := by
            rw [hcs]
            exact List.mem_cons_of_mem _ hc
          have hcb : c < t.links.length :=
            upLinks_bounds t hnp hlb t.nodes.length ((linkAt t L).node) hn c hcmem
          have hnr : (edgeAt t (linkAt t c).edge).primary_link ≠ c :=
            upLinks_not_root_side t t.nodes.length ((linkAt t L).node) c hcmem
          have hsec : (edgeAt t (linkAt t c).edge).secondary_link = c :=
            (chkLinkSide_at t hside c hcb).resolve_left hnr
          rw [heq] at hsec
          have hcL : c = L := by rw [← hsec, hsecL]
          have hnodup' : (L :: upLinks t (t.nodes.length - 1)
              ((linkAt t ((linkAt t L).outer)).node)).Nodup := hcs ▸ hcsnodup
          exact (List.nodup_cons.mp hnodup').1 (hcL ▸ hc)
        rw [reroot_def, hcs, List.foldl_cons, foldRev_edgeAt t _ _ _ hrest]
        have hlen : (linkAt t L).edge <
            (applyRev t { t with
              nodes := t.nodes.set ((linkAt t L).node)
                { nodeAt t ((linkAt t L).node) with primary := L } } L).edges.length := by
          show (linkAt t L).edge < (t.edges.set _ _).length
          rw [List.length_set]
          exact heL
        have hflip := listGetDSetSelf t.edges ((linkAt t L).edge)
          (flipEdge (edgeAt t ((linkAt t L).edge))) (⟨0, 0, 0, 0, 0⟩ : ArenaEdge) heL
        show ((t.edges.set ((linkAt t L).edge)
            (flipEdge (edgeAt t ((linkAt t L).edge)))).getD ((linkAt t L).edge)
            ⟨0, 0, 0, 0, 0⟩).primary_link = L
        rw [hflip]
        exact hsecL
    · have hr0 : (edgeAt t (linkAt t L).edge).primary_link = L :=
        (chkOrientation_at t hori L hL).resolve_left hC
      have havoid : ∀ c ∈ upLinks t t.nodes.length ((linkAt t L).node),
          (linkAt t c).edge ≠ (linkAt t L).edge := by
        intro c hc heq
        have hcb : c < t.links.length :=
          upLinks_bounds t hnp hlb t.nodes.length ((linkAt t L).node) hn c hc
        have hnr : (edgeAt t (linkAt t c).edge).primary_link ≠ c :=
          upLinks_not_root_side t t.nodes.length ((linkAt t L).node) c hc
        have hsec : (edgeAt t (linkAt t c).edge).secondary_link = c :=
          (chkLinkSide_at t hside c hcb).resolve_left hnr
        rw [heq] at hsec
        have h4 := (chkEdges_at t hedg ((linkAt t L).edge) heL).2.2.2.1
        rw [hsec] at h4
        have houter : (linkAt t c).outer = L := by rw [h4, hr0]
        have := halpha c hc
        rw [houter] at this
        exact this rfl
      rw [reroot_def, foldRev_edgeAt t _ _ _ havoid]
      exact hr0

/-- C9: on a valid tree, rerooting at the link that is already the current
root link is the identity, and rerooting twice in a row at the same link
equals rerooting once (the first reroot makes `L` the root link, so the
second is a no-op). -/
theorem c9_reroot_noop_idempotent :
    ∀ (t : ArenaTree) (L : Nat), validate_topology t = true → L < t.links.length →
      (isRootLink t L = true → reroot t L = t)
      ∧ reroot (reroot t L) L = reroot t L := by
  intro t L hv hL
  obtain ⟨hcnt, hlb, hnp, hout, hedg, hside, hori, hcyc, hchn, hru⟩ := validate_parts t hv
  have hn : (linkAt t L).node < t.nodes.length := (chkLinkBounds_at t hlb L hL).1
  constructor
  · intro hroot
    unfold isRootLink at hroot
    simp only [Bool.and_eq_true, beq_iff_eq] at hroot
    exact reroot_noop_of_rootish t L hn hroot.1 hroot.2
  · obtain ⟨hlk, hnl, hel, hpn, hpe⟩ := reroot_facts t L hv hL
    have hlta : linkAt (reroot t L) L = linkAt t L := linkAt_of_links_eq hlk L
    apply reroot_noop_of_rootish (reroot t L) L
    · rw [hlta, hnl]
      exact hn
    · rw [hlta]
      exact hpn
    · rw [hlta]
      exact hpe

/-- C9 witness: the concrete test tree; link 8 is `R`'s primary (root)
link, so rerooting there is the identity and rerooting twice at it equals
rerooting once. -/
theorem c9_witness :
    reroot demoTree 8 = demoTree
    ∧ reroot (reroot demoTree 8) 8 = reroot demoTree 8 :=
  ⟨(c9_reroot_noop_idempotent demoTree 8 (by rfl) (by decide)).1 (by rfl),
   (c9_reroot_noop_idempotent demoTree 8 (by rfl) (by decide)).2⟩
